import Mathlib

/-!
Verification of the core storage-engine components of this repository: the
LRU-K replacer (src/replacer.rs), the B+Tree (src/btree/mod.rs with its slot
codec src/btree2/slot.rs), and the internal-node page decoder
(src/btree/internal.rs).

Modelling conventions.
Machine integers (u64 timestamps, pin counters) are Nat; where Rust integer
overflow or underflow matters the operation is modelled as returning none
(Rust panics on overflow in checked builds, and the repository treats such
events as bugs).  A result type `Option A` is used throughout with `none`
standing for a panic (failed assert, unwrap on None, unreachable, index out
of bounds) or for divergence (fuel exhaustion of a recursion that follows
page pointers).  The std `HashMap<FrameId, LRUKNode>` is modelled as an
association list; iteration order of the eviction loop follows list order,
one of the unspecified orders the HashMap may produce.  `BTreeSet<Slot<K,V>>`
(whose `Ord` instance, from src/btree2/slot.rs, compares keys only) is
modelled as a list of slots kept sorted by key.  Page buffers holding encoded
nodes are modelled by the decoded node itself: the node codec
(src/btree/node.rs) is not part of src, and the spec states the page bytes
are the authoritative state of the node, so a page store maps PageId directly
to the node stored on that page.
-/

/-! ## LRU-K replacer, from src/replacer.rs -/

/-- One more than the largest u64 value. -/
def U64LIMIT : Nat := 18446744073709551616

/-- The largest u64 value, 2 to the 64 minus one. -/
def U64MAX : Nat := 18446744073709551615

/-- Mirrors struct LRUKNode of src/replacer.rs: frame id `i`, access
timestamp history (oldest first), and pin counter. -/
structure LRUKNode where
  i : Nat
  history : List Nat
  pin : Nat
deriving DecidableEq

/-- Mirrors LRUKNode::get_k_distance (src/replacer.rs lines 23 to 33).
Returns `some none` when the history holds fewer than `k` timestamps
(the Rust function returns None), `some (some d)` for a defined distance,
and `none` when the Rust code would panic: the index `len - k` is out of
bounds (k = 0), `last()` is unwrapped on an empty history, or the u64
subtraction `latest - history[len - k]` underflows. -/
def LRUKNode.getKDistance (n : LRUKNode) (k : Nat) : Option (Option Nat) :=
  let len := n.history.length
  if len < k then some none
  else
    match n.history.getLast?, n.history.get? (len - k) with
    | some latest, some kth => if kth ≤ latest then some (some (latest - kth)) else none
    | _, _ => none

/-- Mirrors struct LRUKReplacer of src/replacer.rs: the HashMap of nodes is
an association list from frame id to node, plus the logical clock and the
parameter K. -/
structure LRUKReplacer where
  nodes : List (Nat × LRUKNode)
  currentTs : Nat
  k : Nat
deriving DecidableEq

/-- Lookup of a frame id in the association list modelling the HashMap. -/
def lookupNode (l : List (Nat × LRUKNode)) (i : Nat) : Option LRUKNode :=
  (l.find? (fun p => p.1 == i)).map (fun p => p.2)

/-- Pointwise update of the entry with key `i`, leaving other entries and
the key order unchanged (models in-place mutation through the HashMap). -/
def updateNode (l : List (Nat × LRUKNode)) (i : Nat) (f : LRUKNode → LRUKNode) :
    List (Nat × LRUKNode) :=
  l.map (fun p => if p.1 = i then (p.1, f p.2) else p)

/-- Mirrors LRUKReplacer::new (src/replacer.rs lines 49 to 54). -/
def LRUKReplacer.init (k : Nat) : LRUKReplacer :=
  ⟨[], 0, k⟩

/-- Mirrors LRUKReplacer::record_access (src/replacer.rs lines 93 to 104):
push the current timestamp on the frame history (creating the node on first
access) and increment the clock.  Returns none when the u64 clock increment
would overflow. -/
def LRUKReplacer.recordAccess (r : LRUKReplacer) (i : Nat) : Option LRUKReplacer :=
  if r.currentTs + 1 < U64LIMIT then
    match lookupNode r.nodes i with
    | some _ =>
        some { r with
          nodes := updateNode r.nodes i (fun n => { n with history := n.history ++ [r.currentTs] }),
          currentTs := r.currentTs + 1 }
    | none =>
        some { r with
          nodes := r.nodes ++ [(i, ⟨i, [r.currentTs], 0⟩)],
          currentTs := r.currentTs + 1 }
  else none

/-- Mirrors LRUKReplacer::pin (src/replacer.rs lines 106 to 110): increment
the pin count of a tracked frame; untracked frames are ignored.  Returns
none when the u64 increment would overflow. -/
def LRUKReplacer.pinFrame (r : LRUKReplacer) (i : Nat) : Option LRUKReplacer :=
  match lookupNode r.nodes i with
  | none => some r
  | some n =>
      if n.pin + 1 < U64LIMIT then
        some { r with nodes := updateNode r.nodes i (fun m => { m with pin := m.pin + 1 }) }
      else none

/-- Mirrors LRUKReplacer::unpin (src/replacer.rs lines 112 to 116):
decrement the pin count of a tracked frame; untracked frames are ignored.
Returns none when the u64 subtraction `node.pin -= 1` underflows, that is
when the tracked frame's pin count is already 0. -/
def LRUKReplacer.unpinFrame (r : LRUKReplacer) (i : Nat) : Option LRUKReplacer :=
  match lookupNode r.nodes i with
  | none => some r
  | some n =>
      if n.pin = 0 then none
      else some { r with nodes := updateNode r.nodes i (fun m => { m with pin := m.pin - 1 }) }

/-- Mirrors LRUKReplacer::remove (src/replacer.rs lines 118 to 130): drop the
frame's node if tracked (a nonzero pin count is only logged). -/
def LRUKReplacer.removeFrame (r : LRUKReplacer) (i : Nat) : LRUKReplacer :=
  { r with nodes := r.nodes.filter (fun p => p.1 ≠ i) }

/-- The first loop of LRUKReplacer::evict (src/replacer.rs lines 59 to 69):
fold over the nodes, skipping pinned frames, tracking the running maximum
`(frame, distance)` pair (starting from (0, 0)) and collecting the frames
with fewer than K accesses into `single_access`.  Returns none when
get_k_distance panics. -/
def evictFold (k : Nat) : List (Nat × LRUKNode) → Nat × Nat → List LRUKNode →
    Option ((Nat × Nat) × List LRUKNode)
  | [], best, sa => some (best, sa)
  | p :: rest, best, sa =>
    if p.2.pin ≠ 0 then evictFold k rest best sa
    else
      match p.2.getKDistance k with
      | none => none
      | some (some d) => if d > best.2 then evictFold k rest (p.1, d) sa else evictFold k rest best sa
      | some none => evictFold k rest best (sa ++ [p.2])

/-- The second loop of LRUKReplacer::evict (src/replacer.rs lines 81 to 88):
over the single-access frames, track the `(frame, timestamp)` pair with the
smallest last-access timestamp, starting from (0, u64::MAX).  Returns none
when a history is empty (the todo!() arm). -/
def earliestFold : List LRUKNode → Nat × Nat → Option (Nat × Nat)
  | [], e => some e
  | n :: rest, e =>
    match n.history.getLast? with
    | none => none
    | some ts => if ts < e.2 then earliestFold rest (n.i, ts) else earliestFold rest e

/-- Mirrors LRUKReplacer::evict (src/replacer.rs lines 56 to 91).  The outer
Option models panics; the inner Option is the Rust return value. -/
def LRUKReplacer.evict (r : LRUKReplacer) : Option (Option Nat) :=
  match evictFold r.k r.nodes (0, 0) [] with
  | none => none
  | some (best, sa) =>
    if best.2 ≠ 0 then some (some best.1)
    else if sa.isEmpty then some none
    else
      match earliestFold sa (0, U64MAX) with
      | none => none
      | some e => some (some e.1)

/-- One completed replacer operation: record_access, pin, unpin or remove
(the mutating messages of the LRUKActor loop, src/replacer.rs lines 155 to
171).  An operation that panics does not produce a successor state. -/
inductive ReplacerStep (r : LRUKReplacer) : LRUKReplacer → Prop
  | record (i : Nat) (r₂ : LRUKReplacer) : r.recordAccess i = some r₂ → ReplacerStep r r₂
  | pinned (i : Nat) (r₂ : LRUKReplacer) : r.pinFrame i = some r₂ → ReplacerStep r r₂
  | unpinned (i : Nat) (r₂ : LRUKReplacer) : r.unpinFrame i = some r₂ → ReplacerStep r r₂
  | removed (i : Nat) : ReplacerStep r (r.removeFrame i)

/-- Replacer states reachable from LRUKReplacer::new(k) by any sequence of
completed record_access, pin, unpin and remove calls. -/
inductive ReplacerReachable (k : Nat) : LRUKReplacer → Prop
  | init : ReplacerReachable k (LRUKReplacer.init k)
  | step {r r₂ : LRUKReplacer} : ReplacerReachable k r → ReplacerStep r r₂ →
      ReplacerReachable k r₂

/-- State invariant maintained by the replacer operations: distinct frame
ids, the stored id of each node matches its key, histories are nonempty and
strictly increasing, every timestamp is below the clock, and the clock fits
in a u64. -/
structure ReplacerInv (r : LRUKReplacer) : Prop where
  nodupKeys : (r.nodes.map Prod.fst).Nodup
  keyed : ∀ p ∈ r.nodes, p.2.i = p.1
  histNe : ∀ p ∈ r.nodes, p.2.history ≠ []
  histLt : ∀ p ∈ r.nodes, ∀ ts ∈ p.2.history, ts < r.currentTs
  histSorted : ∀ p ∈ r.nodes, List.Sorted (· < ·) p.2.history
  tsLe : r.currentTs ≤ U64MAX

/-! ### Basic facts about the association-list HashMap model -/

theorem u64limit_eq : U64LIMIT = U64MAX + 1 := by
  decide

theorem keys_updateNode (l : List (Nat × LRUKNode)) (i : Nat) (f : LRUKNode → LRUKNode) :
    (updateNode l i f).map Prod.fst = l.map Prod.fst := by
  unfold updateNode
  rw [List.map_map]
  apply List.map_congr_left
  intro p _
  by_cases h : p.1 = i <;> simp [h]

theorem mem_updateNode (l : List (Nat × LRUKNode)) (i : Nat) (f : LRUKNode → LRUKNode)
    (q : Nat × LRUKNode) (h : q ∈ updateNode l i f) :
    q ∈ l ∨ ∃ p, p ∈ l ∧ p.1 = i ∧ q = (p.1, f p.2) := by
  unfold updateNode at h
  obtain ⟨p, hp, hq⟩ := List.mem_map.1 h
  by_cases hi : p.1 = i
  · exact Or.inr ⟨p, hp, hi, by rw [← hq, if_pos hi]⟩
  · exact Or.inl (by rw [← hq, if_neg hi]; exact hp)

theorem lookupNode_eq_none {l : List (Nat × LRUKNode)} {i : Nat} :
    lookupNode l i = none ↔ ∀ p ∈ l, p.1 ≠ i := by
  unfold lookupNode
  simp [List.find?_eq_none]

theorem lookupNode_eq_some {l : List (Nat × LRUKNode)} {i : Nat} {n : LRUKNode}
    (h : lookupNode l i = some n) : (i, n) ∈ l := by
  unfold lookupNode at h
  obtain ⟨p, hp, hn⟩ := Option.map_eq_some'.1 h
  have hmem := List.mem_of_find?_eq_some hp
  have hkey : p.1 = i := by simpa using List.find?_some hp
  have : p = (i, n) := by
    cases p
    simp only at hkey hn
    rw [hkey, hn]
  rw [← this]
  exact hmem

theorem lookupNode_of_mem {l : List (Nat × LRUKNode)} {i : Nat} {n : LRUKNode}
    (hd : (l.map Prod.fst).Nodup) (h : (i, n) ∈ l) : lookupNode l i = some n := by
  induction l with
  | nil => cases h
  | cons q rest ih =>
    simp only [List.map_cons, List.nodup_cons, List.mem_map] at hd
    rcases List.mem_cons.1 h with hq | hr
    · rw [← hq]
      unfold lookupNode
      simp
    · by_cases hqi : q.1 = i
      · exact absurd ⟨(i, n), hr, hqi.symm⟩ hd.1
      · unfold lookupNode at *
        rw [List.find?_cons_of_neg]
        · exact ih hd.2 hr
        · simpa using hqi

/-! ### Invariant preservation for the replacer -/

theorem inv_init (k : Nat) : ReplacerInv (LRUKReplacer.init k) := by
  constructor <;> simp [LRUKReplacer.init, U64MAX]

theorem inv_nodes_update {r : LRUKReplacer} (hI : ReplacerInv r) (i : Nat)
    (f : LRUKNode → LRUKNode) (cts : Nat)
    (hf : ∀ n, (f n).i = n.i)
    (hh : ∀ p ∈ r.nodes, p.1 = i → (f p.2).history ≠ [] ∧
      (∀ ts ∈ (f p.2).history, ts < cts) ∧ List.Sorted (· < ·) (f p.2).history)
    (hcts : r.currentTs ≤ cts) (hle : cts ≤ U64MAX) :
    ReplacerInv ⟨updateNode r.nodes i f, cts, r.k⟩ := by
  have hcase : ∀ (P : Nat × LRUKNode → Prop), (∀ p ∈ r.nodes, P p) →
      (∀ p ∈ r.nodes, p.1 = i → P (p.1, f p.2)) → ∀ q ∈ updateNode r.nodes i f, P q := by
    intro P h1 h2 q hq
    rcases mem_updateNode r.nodes i f q hq with hmem | ⟨p, hp, hpi, hpq⟩
    · exact h1 q hmem
    · rw [hpq]; exact h2 p hp hpi
  refine ⟨?_, ?_, ?_, ?_, ?_, hle⟩
  · show (List.map Prod.fst (updateNode r.nodes i f)).Nodup
    rw [keys_updateNode]
    exact hI.nodupKeys
  · refine hcase (fun q => q.2.i = q.1) hI.keyed ?_
    intro p hp hpi
    show (f p.2).i = p.1
    rw [hf p.2]
    exact hI.keyed p hp
  · refine hcase (fun q => q.2.history ≠ []) hI.histNe ?_
    intro p hp hpi
    exact (hh p hp hpi).1
  · refine hcase (fun q => ∀ ts ∈ q.2.history, ts < cts) ?_ ?_
    · intro p hp ts hts
      exact Nat.lt_of_lt_of_le (hI.histLt p hp ts hts) hcts
    · intro p hp hpi
      exact (hh p hp hpi).2.1
  · refine hcase (fun q => List.Sorted (· < ·) q.2.history) hI.histSorted ?_
    intro p hp hpi
    exact (hh p hp hpi).2.2

theorem inv_recordAccess {r r₂ : LRUKReplacer} {i : Nat} (hI : ReplacerInv r)
    (h : r.recordAccess i = some r₂) : ReplacerInv r₂ := by
  unfold LRUKReplacer.recordAccess at h
  split at h
  case isFalse => cases h
  case isTrue hts =>
    have htsle : r.currentTs + 1 ≤ U64MAX := by
      rw [u64limit_eq] at hts
      exact Nat.lt_succ_iff.1 hts
    split at h
    case h_1 n hl =>
      injection h with h
      subst h
      refine inv_nodes_update hI i
        (fun n => { n with history := n.history ++ [r.currentTs] })
        (r.currentTs + 1) (fun n => rfl) ?_ (Nat.le_succ _) htsle
      intro p hp _
      refine ⟨by simp, ?_, ?_⟩
      · intro ts hts2
        simp only [List.mem_append, List.mem_singleton] at hts2
        rcases hts2 with hold | hnew
        · exact Nat.lt_succ_of_lt (hI.histLt p hp ts hold)
        · rw [hnew]; exact Nat.lt_succ_self _
      · show List.Sorted (· < ·) (p.2.history ++ [r.currentTs])
        rw [List.Sorted, List.pairwise_append]
        refine ⟨hI.histSorted p hp, List.pairwise_singleton _ _, ?_⟩
        intro a ha b hb
        rw [List.mem_singleton.1 hb]
        exact hI.histLt p hp a ha
    case h_2 hl =>
      injection h with h
      subst h
      have hnotin : ∀ p ∈ r.nodes, p.1 ≠ i := lookupNode_eq_none.1 hl
      refine ⟨?_, ?_, ?_, ?_, ?_, htsle⟩
      · show ((r.nodes ++ [(i, LRUKNode.mk i [r.currentTs] 0)]).map Prod.fst).Nodup
        rw [List.map_append, List.nodup_append]
        refine ⟨hI.nodupKeys, List.nodup_singleton _, ?_⟩
        intro a ha hb
        simp only [List.map_cons, List.map_nil, List.mem_singleton] at hb
        obtain ⟨p, hp, hpa⟩ := List.mem_map.1 ha
        exact hnotin p hp (by rw [hpa, hb])
      · intro p hp
        rcases List.mem_append.1 hp with hmem | hnew
        · exact hI.keyed p hmem
        · rw [List.mem_singleton.1 hnew]
      · intro p hp
        rcases List.mem_append.1 hp with hmem | hnew
        · exact hI.histNe p hmem
        · rw [List.mem_singleton.1 hnew]; simp
      · intro p hp ts hts2
        rcases List.mem_append.1 hp with hmem | hnew
        · exact Nat.lt_succ_of_lt (hI.histLt p hmem ts hts2)
        · rw [List.mem_singleton.1 hnew] at hts2
          simp only [List.mem_singleton] at hts2
          rw [hts2]
          exact Nat.lt_succ_self _
      · intro p hp
        rcases List.mem_append.1 hp with hmem | hnew
        · exact hI.histSorted p hmem
        · rw [List.mem_singleton.1 hnew]
          exact List.sorted_singleton _

theorem inv_updatePin {r : LRUKReplacer} (hI : ReplacerInv r) (i : Nat) (g : Nat → Nat) :
    ReplacerInv { r with nodes := updateNode r.nodes i (fun m => { m with pin := g m.pin }) } := by
  refine inv_nodes_update hI i (fun m => { m with pin := g m.pin }) r.currentTs
    (fun n => rfl) ?_ (Nat.le_refl _) hI.tsLe
  intro p hp _
  exact ⟨hI.histNe p hp, hI.histLt p hp, hI.histSorted p hp⟩

theorem inv_pinFrame {r r₂ : LRUKReplacer} {i : Nat} (hI : ReplacerInv r)
    (h : r.pinFrame i = some r₂) : ReplacerInv r₂ := by
  unfold LRUKReplacer.pinFrame at h
  split at h
  case h_1 => injection h with h; rw [← h]; exact hI
  case h_2 n hl =>
    split at h
    case isFalse => cases h
    case isTrue =>
      injection h with h
      rw [← h]
      exact inv_updatePin hI i (· + 1)

theorem inv_unpinFrame {r r₂ : LRUKReplacer} {i : Nat} (hI : ReplacerInv r)
    (h : r.unpinFrame i = some r₂) : ReplacerInv r₂ := by
  unfold LRUKReplacer.unpinFrame at h
  split at h
  case h_1 => injection h with h; rw [← h]; exact hI
  case h_2 n hl =>
    split at h
    case isTrue => cases h
    case isFalse =>
      injection h with h
      rw [← h]
      exact inv_updatePin hI i (· - 1)

theorem inv_removeFrame {r : LRUKReplacer} (hI : ReplacerInv r) (i : Nat) :
    ReplacerInv (r.removeFrame i) := by
  unfold LRUKReplacer.removeFrame
  have hsub : ∀ p ∈ r.nodes.filter (fun p => p.1 ≠ i), p ∈ r.nodes :=
    fun p hp => List.mem_of_mem_filter hp
  refine ⟨?_, ?_, ?_, ?_, ?_, hI.tsLe⟩
  · exact List.Nodup.sublist (List.Sublist.map Prod.fst (List.filter_sublist _)) hI.nodupKeys
  · intro p hp; exact hI.keyed p (hsub p hp)
  · intro p hp; exact hI.histNe p (hsub p hp)
  · intro p hp ts hts2; exact hI.histLt p (hsub p hp) ts hts2
  · intro p hp; exact hI.histSorted p (hsub p hp)

theorem inv_of_reachable {k : Nat} {r : LRUKReplacer} (h : ReplacerReachable k r) :
    ReplacerInv r := by
  induction h with
  | init => exact inv_init k
  | step _ hstep ih =>
    cases hstep with
    | record i r₂ he => exact inv_recordAccess ih he
    | pinned i r₂ he => exact inv_pinFrame ih he
    | unpinned i r₂ he => exact inv_unpinFrame ih he
    | removed i => exact inv_removeFrame ih i

/-! ### Properties of get_k_distance -/

theorem kdist_of_len_lt {n : LRUKNode} {k : Nat} (h : n.history.length < k) :
    n.getKDistance k = some none := by
  unfold LRUKNode.getKDistance
  rw [if_pos h]

theorem len_lt_of_kdist_undef {n : LRUKNode} {k : Nat} (h : n.getKDistance k = some none) :
    n.history.length < k := by
  simp only [LRUKNode.getKDistance] at h
  split at h
  · assumption
  · split at h
    · split at h <;> cases h
    · cases h

theorem len_ge_of_kdist_some {n : LRUKNode} {k : Nat} {d : Nat}
    (h : n.getKDistance k = some (some d)) : k ≤ n.history.length := by
  simp only [LRUKNode.getKDistance] at h
  split at h
  · cases h
  · exact Nat.le_of_not_lt (by assumption)

theorem kdist_defined {n : LRUKNode} {k : Nat} (hk : 1 ≤ k) (hlen : k ≤ n.history.length)
    (hs : List.Sorted (· ≤ ·) n.history) :
    ∃ la kt, n.history.getLast? = some la ∧ n.history.get? (n.history.length - k) = some kt ∧
      kt ≤ la ∧ n.getKDistance k = some (some (la - kt)) := by
  have hpos : 0 < n.history.length := Nat.lt_of_lt_of_le hk hlen
  have h1 : n.history.length - 1 < n.history.length := Nat.sub_lt hpos Nat.one_pos
  have h2 : n.history.length - k < n.history.length := Nat.sub_lt hpos hk
  have hla : n.history.getLast? = some (n.history.get ⟨n.history.length - 1, h1⟩) := by
    rw [List.getLast?_eq_getElem?, List.getElem?_eq_getElem h1]
    rfl
  have hkt : n.history.get? (n.history.length - k) =
      some (n.history.get ⟨n.history.length - k, h2⟩) := List.get?_eq_get h2
  have hle : n.history.get ⟨n.history.length - k, h2⟩ ≤ n.history.get ⟨n.history.length - 1, h1⟩ := by
    rcases Nat.lt_or_ge (n.history.length - k) (n.history.length - 1) with hlt | hge
    · have hfin : (⟨n.history.length - k, h2⟩ : Fin n.history.length) < ⟨n.history.length - 1, h1⟩ :=
        hlt
      exact hs.rel_get_of_lt hfin
    · have heq : n.history.length - k = n.history.length - 1 := by
        omega
      simp only [heq]
      exact Nat.le_refl _
  refine ⟨_, _, hla, hkt, hle, ?_⟩
  simp only [LRUKNode.getKDistance]
  rw [if_neg (Nat.not_lt.2 hlen), hla, hkt]
  dsimp only
  rw [if_pos hle]

theorem kdist_not_undef {n : LRUKNode} {k : Nat} (hk : 1 ≤ k)
    (hs : List.Sorted (· ≤ ·) n.history) : n.getKDistance k ≠ none := by
  rcases Nat.lt_or_ge n.history.length k with hlt | hge
  · rw [kdist_of_len_lt hlt]
    exact Option.some_ne_none none
  · obtain ⟨la, kt, _, _, _, hd⟩ := kdist_defined hk hge hs
    rw [hd]
    exact Option.some_ne_none _

theorem kdist_pos {n : LRUKNode} {k : Nat} {d : Nat} (hk : 2 ≤ k)
    (hs : List.Sorted (· < ·) n.history) (h : n.getKDistance k = some (some d)) : 0 < d := by
  have hlen := len_ge_of_kdist_some h
  have hpos : 0 < n.history.length := Nat.lt_of_lt_of_le Nat.zero_lt_two (Nat.le_trans hk hlen)
  have h1 : n.history.length - 1 < n.history.length := Nat.sub_lt hpos Nat.one_pos
  have h2 : n.history.length - k < n.history.length := Nat.sub_lt hpos (by omega : 1 ≤ k)
  have hlt : n.history.length - k < n.history.length - 1 := by
    omega
  have hfin : (⟨n.history.length - k, h2⟩ : Fin n.history.length) < ⟨n.history.length - 1, h1⟩ :=
    hlt
  have hstrict : n.history.get ⟨n.history.length - k, h2⟩ < n.history.get ⟨n.history.length - 1, h1⟩ :=
    hs.rel_get_of_lt hfin
  obtain ⟨la, kt, hla, hkt, hle, hd⟩ :=
    kdist_defined (by omega : 1 ≤ k) hlen (hs.imp (fun hab => le_of_lt hab))
  rw [hd] at h
  injection h with h
  injection h with h
  have hla2 : la = n.history.get ⟨n.history.length - 1, h1⟩ := by
    rw [List.getLast?_eq_getElem?, List.getElem?_eq_getElem h1] at hla
    injection hla with hla
    rw [← hla]
    rfl
  have hkt2 : kt = n.history.get ⟨n.history.length - k, h2⟩ := by
    rw [List.get?_eq_get h2] at hkt
    injection hkt with hkt
    exact hkt.symm
  rw [← h, hla2, hkt2]
  omega

/-! ### Properties of the eviction folds -/

theorem evictFold_mono {k : Nat} {l : List (Nat × LRUKNode)} {best : Nat × Nat}
    {sa : List LRUKNode} {out : (Nat × Nat) × List LRUKNode}
    (h : evictFold k l best sa = some out) : best.2 ≤ out.1.2 := by
  induction l generalizing best sa with
  | nil =>
    injection h with h
    rw [← h]
  | cons p rest ih =>
    simp only [evictFold] at h
    split at h
    · exact ih h
    · split at h
      · cases h
      · split at h
        · exact Nat.le_trans (Nat.le_of_lt (by assumption)) (ih h)
        · exact ih h
      · exact ih h

theorem evictFold_best_origin {k : Nat} {l : List (Nat × LRUKNode)} {best : Nat × Nat}
    {sa : List LRUKNode} {out : (Nat × Nat) × List LRUKNode}
    (h : evictFold k l best sa = some out) :
    out.1 = best ∨ ∃ p ∈ l, p.2.pin = 0 ∧ p.2.getKDistance k = some (some out.1.2) ∧
      out.1.1 = p.1 := by
  induction l generalizing best sa with
  | nil =>
    injection h with h
    rw [← h]
    exact Or.inl rfl
  | cons p rest ih =>
    simp only [evictFold] at h
    split at h
    · rcases ih h with hb | ⟨q, hq, hrest⟩
      · exact Or.inl hb
      · exact Or.inr ⟨q, List.mem_cons_of_mem p hq, hrest⟩
    · rename_i hpin
      split at h
      · cases h
      · rename_i d hd
        split at h
        · rcases ih h with hb | ⟨q, hq, hrest⟩
          · refine Or.inr ⟨p, List.mem_cons_self p rest, Nat.eq_zero_of_not_pos ?_, ?_, ?_⟩
            · intro hpos
              exact hpin (Nat.pos_iff_ne_zero.1 hpos)
            · rw [hb, hd]
            · rw [hb]
          · exact Or.inr ⟨q, List.mem_cons_of_mem p hq, hrest⟩
        · rcases ih h with hb | ⟨q, hq, hrest⟩
          · exact Or.inl hb
          · exact Or.inr ⟨q, List.mem_cons_of_mem p hq, hrest⟩
      · rcases ih h with hb | ⟨q, hq, hrest⟩
        · exact Or.inl hb
        · exact Or.inr ⟨q, List.mem_cons_of_mem p hq, hrest⟩

theorem evictFold_best_ub {k : Nat} {l : List (Nat × LRUKNode)} {best : Nat × Nat}
    {sa : List LRUKNode} {out : (Nat × Nat) × List LRUKNode}
    (h : evictFold k l best sa = some out) :
    ∀ p ∈ l, p.2.pin = 0 → ∀ d, p.2.getKDistance k = some (some d) → d ≤ out.1.2 := by
  induction l generalizing best sa with
  | nil =>
    intro p hp
    cases hp
  | cons p rest ih =>
    intro q hq hqpin d hqd
    simp only [evictFold] at h
    rcases List.mem_cons.1 hq with hhead | htail
    · subst hhead
      rw [if_neg (by rw [hqpin]; exact fun hc => hc rfl)] at h
      rw [hqd] at h
      dsimp only at h
      split at h
      · exact evictFold_mono h
      · exact Nat.le_trans (Nat.le_of_not_lt (by assumption)) (evictFold_mono h)
    · split at h
      · exact ih h q htail hqpin d hqd
      · split at h
        · cases h
        · split at h
          · exact ih h q htail hqpin d hqd
          · exact ih h q htail hqpin d hqd
        · exact ih h q htail hqpin d hqd

theorem evictFold_sa_super {k : Nat} {l : List (Nat × LRUKNode)} {best : Nat × Nat}
    {sa : List LRUKNode} {out : (Nat × Nat) × List LRUKNode}
    (h : evictFold k l best sa = some out) : ∀ n ∈ sa, n ∈ out.2 := by
  induction l generalizing best sa with
  | nil =>
    injection h with h
    rw [← h]
    exact fun n hn => hn
  | cons p rest ih =>
    simp only [evictFold] at h
    split at h
    · exact ih h
    · split at h
      · cases h
      · split at h
        · exact ih h
        · exact ih h
      · intro n hn
        exact ih h n (List.mem_append_left _ hn)

theorem evictFold_sa_origin {k : Nat} {l : List (Nat × LRUKNode)} {best : Nat × Nat}
    {sa : List LRUKNode} {out : (Nat × Nat) × List LRUKNode}
    (h : evictFold k l best sa = some out) :
    ∀ n ∈ out.2, n ∈ sa ∨ ∃ id, (id, n) ∈ l ∧ n.pin = 0 ∧ n.getKDistance k = some none := by
  induction l generalizing best sa with
  | nil =>
    injection h with h
    rw [← h]
    exact fun n hn => Or.inl hn
  | cons p rest ih =>
    intro n hn
    simp only [evictFold] at h
    split at h
    · rcases ih h n hn with hsa | ⟨id, hid, hrest⟩
      · exact Or.inl hsa
      · exact Or.inr ⟨id, List.mem_cons_of_mem p hid, hrest⟩
    · rename_i hpin
      split at h
      · cases h
      · split at h
        · rcases ih h n hn with hsa | ⟨id, hid, hrest⟩
          · exact Or.inl hsa
          · exact Or.inr ⟨id, List.mem_cons_of_mem p hid, hrest⟩
        · rcases ih h n hn with hsa | ⟨id, hid, hrest⟩
          · exact Or.inl hsa
          · exact Or.inr ⟨id, List.mem_cons_of_mem p hid, hrest⟩
      · rename_i hund
        rcases ih h n hn with hsa | ⟨id, hid, hrest⟩
        · rcases List.mem_append.1 hsa with hold | hnew
          · exact Or.inl hold
          · refine Or.inr ⟨p.1, ?_, ?_, ?_⟩
            · rw [List.mem_singleton.1 hnew]
              exact List.mem_cons_self p rest
            · rw [List.mem_singleton.1 hnew]
              exact Nat.eq_zero_of_not_pos (fun hpos => hpin (Nat.pos_iff_ne_zero.1 hpos))
            · rw [List.mem_singleton.1 hnew]
              exact hund
        · exact Or.inr ⟨id, List.mem_cons_of_mem p hid, hrest⟩

theorem evictFold_sa_complete {k : Nat} {l : List (Nat × LRUKNode)} {best : Nat × Nat}
    {sa : List LRUKNode} {out : (Nat × Nat) × List LRUKNode}
    (h : evictFold k l best sa = some out) :
    ∀ p ∈ l, p.2.pin = 0 → p.2.getKDistance k = some none → p.2 ∈ out.2 := by
  induction l generalizing best sa with
  | nil =>
    intro p hp
    cases hp
  | cons p rest ih =>
    intro q hq hqpin hqd
    simp only [evictFold] at h
    rcases List.mem_cons.1 hq with hhead | htail
    · subst hhead
      rw [if_neg (by rw [hqpin]; exact fun hc => hc rfl)] at h
      rw [hqd] at h
      dsimp only at h
      exact evictFold_sa_super h q.2 (List.mem_append_right _ (List.mem_singleton_self _))
    · split at h
      · exact ih h q htail hqpin hqd
      · split at h
        · cases h
        · split at h
          · exact ih h q htail hqpin hqd
          · exact ih h q htail hqpin hqd
        · exact ih h q htail hqpin hqd

theorem evictFold_total {k : Nat} {l : List (Nat × LRUKNode)}
    (hnd : ∀ p ∈ l, p.2.pin = 0 → p.2.getKDistance k ≠ none) (best : Nat × Nat)
    (sa : List LRUKNode) : ∃ out, evictFold k l best sa = some out := by
  induction l generalizing best sa with
  | nil => exact ⟨(best, sa), rfl⟩
  | cons p rest ih =>
    have hrest : ∀ q ∈ rest, q.2.pin = 0 → q.2.getKDistance k ≠ none :=
      fun q hq => hnd q (List.mem_cons_of_mem p hq)
    simp only [evictFold]
    split
    · exact ih hrest best sa
    · rename_i hpin
      have hp0 : p.2.pin = 0 := Nat.eq_zero_of_not_pos (fun hpos => hpin (Nat.pos_iff_ne_zero.1 hpos))
      cases hd : p.2.getKDistance k with
      | none => exact absurd hd (hnd p (List.mem_cons_self p rest) hp0)
      | some o =>
        cases o with
        | none =>
          dsimp only
          exact ih hrest best (sa ++ [p.2])
        | some d =>
          dsimp only
          split
          · exact ih hrest (p.1, d) sa
          · exact ih hrest best sa

theorem evictFold_skip_all {k : Nat} {l : List (Nat × LRUKNode)}
    (hall : ∀ p ∈ l, p.2.pin ≠ 0) (best : Nat × Nat) (sa : List LRUKNode) :
    evictFold k l best sa = some (best, sa) := by
  induction l with
  | nil => rfl
  | cons p rest ih =>
    simp only [evictFold]
    rw [if_pos (hall p (List.mem_cons_self p rest))]
    exact ih (fun q hq => hall q (List.mem_cons_of_mem p hq))

theorem earliestFold_mono {s : List LRUKNode} {e out : Nat × Nat}
    (h : earliestFold s e = some out) : out.2 ≤ e.2 := by
  induction s generalizing e with
  | nil =>
    injection h with h
    rw [← h]
  | cons n rest ih =>
    simp only [earliestFold] at h
    split at h
    · cases h
    · split at h
      · exact Nat.le_trans (ih h) (Nat.le_of_lt (by assumption))
      · exact ih h

theorem earliestFold_origin {s : List LRUKNode} {e out : Nat × Nat}
    (h : earliestFold s e = some out) :
    out = e ∨ ∃ n ∈ s, out.1 = n.i ∧ n.history.getLast? = some out.2 := by
  induction s generalizing e with
  | nil =>
    injection h with h
    rw [← h]
    exact Or.inl rfl
  | cons n rest ih =>
    simp only [earliestFold] at h
    split at h
    · cases h
    · rename_i ts hts
      split at h
      · rcases ih h with hb | ⟨m, hm, hrest⟩
        · refine Or.inr ⟨n, List.mem_cons_self n rest, ?_, ?_⟩
          · rw [hb]
          · rw [hb]
            exact hts
        · exact Or.inr ⟨m, List.mem_cons_of_mem n hm, hrest⟩
      · rcases ih h with hb | ⟨m, hm, hrest⟩
        · exact Or.inl hb
        · exact Or.inr ⟨m, List.mem_cons_of_mem n hm, hrest⟩

theorem earliestFold_lb {s : List LRUKNode} {e out : Nat × Nat}
    (h : earliestFold s e = some out) :
    ∀ n ∈ s, ∀ ts, n.history.getLast? = some ts → out.2 ≤ ts := by
  induction s generalizing e with
  | nil =>
    intro n hn
    cases hn
  | cons n rest ih =>
    intro m hm ts hts
    simp only [earliestFold] at h
    rcases List.mem_cons.1 hm with hhead | htail
    · subst hhead
      rw [hts] at h
      dsimp only at h
      split at h
      · exact earliestFold_mono h
      · exact Nat.le_trans (earliestFold_mono h) (Nat.le_of_not_lt (by assumption))
    · split at h
      · cases h
      · split at h
        · exact ih h m htail ts hts
        · exact ih h m htail ts hts

theorem earliestFold_total {s : List LRUKNode} (hne : ∀ n ∈ s, n.history ≠ []) (e : Nat × Nat) :
    ∃ out, earliestFold s e = some out := by
  induction s generalizing e with
  | nil => exact ⟨e, rfl⟩
  | cons n rest ih =>
    simp only [earliestFold]
    rw [List.getLast?_eq_getLast_of_ne_nil (hne n (List.mem_cons_self n rest))]
    have hrest : ∀ m ∈ rest, m.history ≠ [] := fun m hm => hne m (List.mem_cons_of_mem n hm)
    dsimp only
    split
    · exact ih hrest _
    · exact ih hrest e

/-! ### Soundness of evict -/

theorem evict_unfold {r : LRUKReplacer} {best : Nat × Nat} {sa : List LRUKNode}
    (hef : evictFold r.k r.nodes (0, 0) [] = some (best, sa)) :
    r.evict = if best.2 ≠ 0 then some (some best.1)
      else if sa.isEmpty then some none
      else match earliestFold sa (0, U64MAX) with
        | none => none
        | some e => some (some e.1) := by
  unfold LRUKReplacer.evict
  rw [hef]

theorem inv_sorted_le {r : LRUKReplacer} (hI : ReplacerInv r) :
    ∀ p ∈ r.nodes, List.Sorted (· ≤ ·) p.2.history :=
  fun p hp => (hI.histSorted p hp).imp (fun hab => le_of_lt hab)

theorem inv_lastTs_lt_max {r : LRUKReplacer} (hI : ReplacerInv r) {n : LRUKNode} {id : Nat}
    (hn : (id, n) ∈ r.nodes) {ts : Nat} (hts : n.history.getLast? = some ts) : ts < U64MAX := by
  have hne := hI.histNe (id, n) hn
  rw [List.getLast?_eq_getLast_of_ne_nil hne] at hts
  injection hts with hts
  have hmem : ts ∈ n.history := by
    rw [← hts]
    exact List.getLast_mem hne
  exact Nat.lt_of_lt_of_le (hI.histLt (id, n) hn ts hmem) hI.tsLe

theorem earliestFold_picks {r : LRUKReplacer} (hI : ReplacerInv r) {sa : List LRUKNode}
    (hsa : ∀ n ∈ sa, ∃ id, (id, n) ∈ r.nodes ∧ n.pin = 0 ∧ n.getKDistance r.k = some none)
    (hne : sa ≠ []) {e : Nat × Nat} (her : earliestFold sa (0, U64MAX) = some e) :
    ∃ n ∈ sa, e.1 = n.i ∧ n.history.getLast? = some e.2 := by
  rcases earliestFold_origin her with hbase | hgood
  · exfalso
    obtain ⟨n0, hn0⟩ : ∃ n0, n0 ∈ sa := by
      cases sa with
      | nil => exact absurd rfl hne
      | cons a l => exact ⟨a, List.mem_cons_self a l⟩
    obtain ⟨id0, hid0, _, _⟩ := hsa n0 hn0
    have hne0 := hI.histNe (id0, n0) hid0
    have hts0 : n0.history.getLast? = some (n0.history.getLast hne0) :=
      List.getLast?_eq_getLast_of_ne_nil hne0
    have hlb := earliestFold_lb her n0 hn0 _ hts0
    have hlt : n0.history.getLast hne0 < U64MAX := inv_lastTs_lt_max hI hid0 hts0
    rw [hbase] at hlb
    exact Nat.lt_irrefl U64MAX (Nat.lt_of_le_of_lt hlb hlt)
  · exact hgood

theorem evict_returns_unpinned {r : LRUKReplacer} (hI : ReplacerInv r) {f : Nat}
    (h : r.evict = some (some f)) :
    ∃ n, lookupNode r.nodes f = some n ∧ n.pin = 0 := by
  unfold LRUKReplacer.evict at h
  cases hef : evictFold r.k r.nodes (0, 0) [] with
  | none =>
    rw [hef] at h
    cases h
  | some out =>
    obtain ⟨best, sa⟩ := out
    rw [hef] at h
    dsimp only at h
    split at h
    · rename_i hbest
      injection h with h
      injection h with h
      rcases evictFold_best_origin hef with hb | ⟨p, hp, hppin, hpd, hpf⟩
      · exfalso
        apply hbest
        have hb2 : best = (0, 0) := hb
        rw [hb2]
      · refine ⟨p.2, ?_, hppin⟩
        rw [← h, hpf]
        exact lookupNode_of_mem hI.nodupKeys hp
    · split at h
      · injection h with h2
        cases h2
      · rename_i hbest hsane
        cases her : earliestFold sa (0, U64MAX) with
        | none =>
          rw [her] at h
          cases h
        | some e =>
          rw [her] at h
          injection h with h
          injection h with h
          have hsa : ∀ n ∈ sa, ∃ id, (id, n) ∈ r.nodes ∧ n.pin = 0 ∧
              n.getKDistance r.k = some none := by
            intro n hn
            rcases evictFold_sa_origin hef n hn with hempty | hok
            · cases hempty
            · exact hok
          have hnesa : sa ≠ [] := by
            intro hc
            rw [hc] at hsane
            exact hsane rfl
          obtain ⟨n, hn, hni, hnl⟩ := earliestFold_picks hI hsa hnesa her
          obtain ⟨id, hid, hpin, _⟩ := hsa n hn
          have hkey : n.i = id := hI.keyed (id, n) hid
          refine ⟨n, ?_, hpin⟩
          rw [← h, hni, hkey]
          exact lookupNode_of_mem hI.nodupKeys hid

theorem evict_none_cases {r : LRUKReplacer} {best : Nat × Nat} {sa : List LRUKNode}
    (hef : evictFold r.k r.nodes (0, 0) [] = some (best, sa))
    (h : r.evict = some none) : best.2 = 0 ∧ sa = [] := by
  have he := evict_unfold hef
  rw [h] at he
  by_cases h1 : best.2 ≠ 0
  · rw [if_pos h1] at he
    injection he with he2
    cases he2
  · rw [if_neg h1] at he
    by_cases h2 : sa.isEmpty
    · refine ⟨not_not.1 h1, ?_⟩
      cases sa with
      | nil => rfl
      | cons a l => cases h2
    · rw [if_neg h2] at he
      exfalso
      cases her : earliestFold sa (0, U64MAX) with
      | none =>
        rw [her] at he
        cases he
      | some e =>
        rw [her] at he
        injection he with he2
        cases he2

/-- Victim-selection contract of LRUKReplacer::evict: it answers none exactly
when no unpinned frame is tracked; when some unpinned frame has at least K
recorded accesses it returns an unpinned frame of maximal K-distance; when
unpinned frames exist but all have fewer than K accesses it returns an
unpinned frame with the earliest last-access timestamp. -/
def evictSelectsVictim (r : LRUKReplacer) : Prop :=
  (r.evict = some none ↔ ∀ p ∈ r.nodes, p.2.pin ≠ 0) ∧
  ((∃ p ∈ r.nodes, p.2.pin = 0 ∧ r.k ≤ p.2.history.length) →
    ∃ f n dn, r.evict = some (some f) ∧ lookupNode r.nodes f = some n ∧ n.pin = 0 ∧
      n.getKDistance r.k = some (some dn) ∧
      ∀ p ∈ r.nodes, p.2.pin = 0 → ∀ d, p.2.getKDistance r.k = some (some d) → d ≤ dn) ∧
  ((∃ p ∈ r.nodes, p.2.pin = 0) →
    (∀ p ∈ r.nodes, p.2.pin = 0 → p.2.history.length < r.k) →
    ∃ f n ts, r.evict = some (some f) ∧ lookupNode r.nodes f = some n ∧ n.pin = 0 ∧
      n.history.length < r.k ∧ n.history.getLast? = some ts ∧
      ∀ p ∈ r.nodes, p.2.pin = 0 → ∀ ts2, p.2.history.getLast? = some ts2 → ts ≤ ts2)

theorem evict_selects_victim_of_inv {r : LRUKReplacer} (hk : 2 ≤ r.k) (hI : ReplacerInv r) :
    evictSelectsVictim r := by
  have htotal : ∀ p ∈ r.nodes, p.2.pin = 0 → p.2.getKDistance r.k ≠ none :=
    fun p hp _ => kdist_not_undef (by omega) (inv_sorted_le hI p hp)
  obtain ⟨⟨best, sa⟩, hef⟩ := evictFold_total htotal (0, 0) []
  refine ⟨⟨?_, ?_⟩, ?_, ?_⟩
  · intro hnone p hp
    obtain ⟨hbz, hsz⟩ := evict_none_cases hef hnone
    intro hpin
    rcases Nat.lt_or_ge p.2.history.length r.k with hlt | hge
    · have hmem := evictFold_sa_complete hef p hp hpin (kdist_of_len_lt hlt)
      rw [hsz] at hmem
      cases hmem
    · obtain ⟨la, kt, _, _, _, hpd⟩ := kdist_defined (by omega) hge (inv_sorted_le hI p hp)
      have hdp : 0 < la - kt := kdist_pos hk (hI.histSorted p hp) hpd
      have hub : la - kt ≤ best.2 := evictFold_best_ub hef p hp hpin _ hpd
      omega
  · intro hall
    have hef2 := @evictFold_skip_all r.k r.nodes hall (0, 0) []
    have he := evict_unfold hef2
    simpa using he
  · rintro ⟨p, hp, hpin, hlen⟩
    obtain ⟨la, kt, _, _, _, hpd⟩ := kdist_defined (by omega) hlen (inv_sorted_le hI p hp)
    have hdp : 0 < la - kt := kdist_pos hk (hI.histSorted p hp) hpd
    have hub : la - kt ≤ best.2 := evictFold_best_ub hef p hp hpin _ hpd
    have hbestpos : best.2 ≠ 0 := by
      intro hc
      rw [hc] at hub
      omega
    have he := evict_unfold hef
    rw [if_pos hbestpos] at he
    rcases evictFold_best_origin hef with hb | ⟨q, hq, hqpin, hqd, hqf⟩
    · exfalso
      apply hbestpos
      have hb2 : best = (0, 0) := hb
      rw [hb2]
    · refine ⟨best.1, q.2, best.2, he, ?_, hqpin, hqd, ?_⟩
      · have hqf2 : best.1 = q.1 := hqf
        rw [hqf2]
        exact lookupNode_of_mem hI.nodupKeys hq
      · intro p2 hp2 hpin2 d hd
        exact evictFold_best_ub hef p2 hp2 hpin2 d hd
  · rintro ⟨p, hp, hpin⟩ hall
    have hmem := evictFold_sa_complete hef p hp hpin (kdist_of_len_lt (hall p hp hpin))
    have hbz : best = (0, 0) := by
      rcases evictFold_best_origin hef with hb | ⟨q, hq, hqpin, hqd, _⟩
      · exact hb
      · exfalso
        have hqd2 := kdist_of_len_lt (hall q hq hqpin)
        rw [hqd2] at hqd
        injection hqd with hc
        cases hc
    have hne2 : sa ≠ [] := by
      intro hc
      rw [hc] at hmem
      cases hmem
    have hsaall : ∀ n ∈ sa, ∃ id, (id, n) ∈ r.nodes ∧ n.pin = 0 ∧
        n.getKDistance r.k = some none := by
      intro n hn
      rcases evictFold_sa_origin hef n hn with hempty | hok
      · cases hempty
      · exact hok
    have hsane : sa.isEmpty = false := by
      cases sa with
      | nil => exact absurd rfl hne2
      | cons a l => rfl
    obtain ⟨e, her⟩ := earliestFold_total
      (fun n hn => by
        obtain ⟨id, hid, _, _⟩ := hsaall n hn
        exact hI.histNe (id, n) hid)
      (0, U64MAX)
    have he := evict_unfold hef
    rw [hbz] at he
    rw [if_neg (by simp)] at he
    rw [if_neg (by rw [hsane]; simp)] at he
    rw [her] at he
    obtain ⟨n, hn, hni, hnl⟩ := earliestFold_picks hI hsaall hne2 her
    obtain ⟨id, hid, hnpin, hnund⟩ := hsaall n hn
    have hkey : n.i = id := hI.keyed (id, n) hid
    refine ⟨e.1, n, e.2, he, ?_, hnpin, len_lt_of_kdist_undef hnund, hnl, ?_⟩
    · rw [hni, hkey]
      exact lookupNode_of_mem hI.nodupKeys hid
    · intro p2 hp2 hpin2 ts2 hts2
      have hmem2 := evictFold_sa_complete hef p2 hp2 hpin2
        (kdist_of_len_lt (hall p2 hp2 hpin2))
      exact earliestFold_lb her p2.2 hmem2 ts2 hts2


/-! ### Claim theorems for the replacer -/

/-- C5: in every replacer state reachable by any sequence of record_access,
pin, unpin and remove calls, whenever evict() returns a frame, that frame is
tracked and its pin count is 0 (never greater than 0). -/
theorem evict_never_pinned {k : Nat} {r : LRUKReplacer} (hr : ReplacerReachable k r) {f : Nat}
    (h : r.evict = some (some f)) :
    ∃ n, lookupNode r.nodes f = some n ∧ n.pin = 0 :=
  evict_returns_unpinned (inv_of_reachable hr) h

/-- Witness for C5: after new(2) and record_access(0), evict returns frame 0,
which is tracked with pin count 0. -/
theorem evict_never_pinned_witness :
    ReplacerReachable 2 (LRUKReplacer.mk [(0, LRUKNode.mk 0 [0] 0)] 1 2) ∧
    LRUKReplacer.evict (LRUKReplacer.mk [(0, LRUKNode.mk 0 [0] 0)] 1 2) = some (some 0) ∧
    ∃ n, lookupNode [(0, LRUKNode.mk 0 [0] 0)] 0 = some n ∧ n.pin = 0 := by
  have hreach : ReplacerReachable 2 (LRUKReplacer.mk [(0, LRUKNode.mk 0 [0] 0)] 1 2) :=
    ReplacerReachable.step ReplacerReachable.init (ReplacerStep.record 0 _ (by decide))
  exact ⟨hreach, by decide, evict_never_pinned hreach (by decide)⟩

/-- C3 counterexample: with K = 1, in the reachable state after new(1) and
record_access(0), frame 0 is tracked and unpinned, yet evict() returns
nothing: every frame's 1-distance is 0, the running maximum stays at its
sentinel (0, 0), and the single-access list stays empty.  This refutes the
claim that evict returns nothing exactly when no unpinned frame exists. -/
theorem evict_k1_returns_none_ce :
    ReplacerReachable 1 (LRUKReplacer.mk [(0, LRUKNode.mk 0 [0] 0)] 1 1) ∧
    LRUKReplacer.evict (LRUKReplacer.mk [(0, LRUKNode.mk 0 [0] 0)] 1 1) = some none ∧
    (0, LRUKNode.mk 0 [0] 0) ∈ (LRUKReplacer.mk [(0, LRUKNode.mk 0 [0] 0)] 1 1).nodes ∧
    (LRUKNode.mk 0 [0] 0).pin = 0 := by
  have hreach : ReplacerReachable 1 (LRUKReplacer.mk [(0, LRUKNode.mk 0 [0] 0)] 1 1) :=
    ReplacerReachable.step ReplacerReachable.init (ReplacerStep.record 0 _ (by decide))
  exact ⟨hreach, by decide, by decide, by decide⟩

/-- C3 (amended): for a replacer whose parameter K is at least 2, in every
reachable state, evict() selects among unpinned frames the one with the
largest defined K-distance; if no unpinned frame has K recorded accesses it
selects among those with fewer than K accesses the one with the earliest
last-access timestamp; and it returns nothing exactly when no unpinned frame
exists.  (For K = 1 the code returns nothing even when unpinned frames
exist, see the counterexample.) -/
theorem evict_victim_selection {k : Nat} {r : LRUKReplacer} (hk : 2 ≤ r.k)
    (hr : ReplacerReachable k r) : evictSelectsVictim r :=
  evict_selects_victim_of_inv hk (inv_of_reachable hr)

/-- Witness for C3: the amended victim-selection contract holds at the
concrete reachable state after new(2) and record_access(0). -/
theorem evict_victim_selection_witness :
    2 ≤ (LRUKReplacer.mk [(0, LRUKNode.mk 0 [0] 0)] 1 2).k ∧
    ReplacerReachable 2 (LRUKReplacer.mk [(0, LRUKNode.mk 0 [0] 0)] 1 2) ∧
    evictSelectsVictim (LRUKReplacer.mk [(0, LRUKNode.mk 0 [0] 0)] 1 2) := by
  have hreach : ReplacerReachable 2 (LRUKReplacer.mk [(0, LRUKNode.mk 0 [0] 0)] 1 2) :=
    ReplacerReachable.step ReplacerReachable.init (ReplacerStep.record 0 _ (by decide))
  exact ⟨by decide, hreach, evict_victim_selection (by decide) hreach⟩

/-- C4: a frame's K-distance is undefined exactly when its history holds
fewer than K timestamps, and otherwise equals the most recent timestamp
minus the timestamp at position len minus K of the history (the K-th most
recent sample).  Stated for K at least 1 and a weakly sorted history, as
maintained for every frame of the replacer. -/
theorem kdist_spec (n : LRUKNode) (k : Nat) (hk : 1 ≤ k)
    (hs : List.Sorted (· ≤ ·) n.history) :
    (n.history.length < k ↔ n.getKDistance k = some none) ∧
    (k ≤ n.history.length →
      ∃ la kt, n.history.getLast? = some la ∧
        n.history.get? (n.history.length - k) = some kt ∧
        n.getKDistance k = some (some (la - kt))) := by
  constructor
  · constructor
    · exact kdist_of_len_lt
    · exact len_lt_of_kdist_undef
  · intro hlen
    obtain ⟨la, kt, h1, h2, _, h4⟩ := kdist_defined hk hlen hs
    exact ⟨la, kt, h1, h2, h4⟩

/-- Witness for C4: for the history [3, 7, 10] and K = 2 the distance is
defined and equals 10 minus 7. -/
theorem kdist_spec_witness :
    1 ≤ 2 ∧ List.Sorted (· ≤ ·) (LRUKNode.mk 0 [3, 7, 10] 0).history ∧
    (((LRUKNode.mk 0 [3, 7, 10] 0).history.length < 2 ↔
      (LRUKNode.mk 0 [3, 7, 10] 0).getKDistance 2 = some none) ∧
    (2 ≤ (LRUKNode.mk 0 [3, 7, 10] 0).history.length →
      ∃ la kt, (LRUKNode.mk 0 [3, 7, 10] 0).history.getLast? = some la ∧
        (LRUKNode.mk 0 [3, 7, 10] 0).history.get?
          ((LRUKNode.mk 0 [3, 7, 10] 0).history.length - 2) = some kt ∧
        (LRUKNode.mk 0 [3, 7, 10] 0).getKDistance 2 = some (some (la - kt)))) :=
  ⟨by decide, by decide, kdist_spec (LRUKNode.mk 0 [3, 7, 10] 0) 2 (by decide) (by decide)⟩

/-- C10: unpin panics by u64 underflow exactly when it is called on a
tracked frame whose pin count is already 0; so pin strictly positive is the
precondition of the decrement, and every unpin must be matched by a
preceding pin. -/
theorem unpin_underflow_iff (r : LRUKReplacer) (i : Nat) :
    r.unpinFrame i = none ↔ ∃ n, lookupNode r.nodes i = some n ∧ n.pin = 0 := by
  unfold LRUKReplacer.unpinFrame
  cases hl : lookupNode r.nodes i with
  | none =>
    dsimp only
    constructor
    · intro hc
      cases hc
    · rintro ⟨n, hn, _⟩
      cases hn
  | some n =>
    dsimp only
    by_cases hp : n.pin = 0
    · rw [if_pos hp]
      exact ⟨fun _ => ⟨n, rfl, hp⟩, fun _ => rfl⟩
    · rw [if_neg hp]
      constructor
      · intro hc
        cases hc
      · rintro ⟨m, hm, hmp⟩
        injection hm with hm
        rw [← hm] at hmp
        exact absurd hmp hp

example : LRUKReplacer.recordAccess (LRUKReplacer.init 2) 0 =
    some ⟨[(0, ⟨0, [0], 0⟩)], 1, 2⟩ := by decide

example : LRUKReplacer.evict ⟨[(0, ⟨0, [0], 0⟩)], 1, 2⟩ = some (some 0) := by decide

example : LRUKReplacer.evict ⟨[(0, ⟨0, [0], 0⟩)], 1, 1⟩ = some none := by decide

example :
    LRUKReplacer.evict ⟨[(0, ⟨0, [0, 2], 1⟩), (1, ⟨1, [1, 3], 0⟩), (2, ⟨2, [4, 5], 0⟩)], 6, 2⟩ =
    some (some 1) := by decide

/-! ## B+Tree, from src/btree/mod.rs and src/btree2/slot.rs

The tree stores Int keys and Int values (the typed 4-byte integer keys of the
spec; i32 overflow of keys and page ids is not in play in any claim).  The
node module src/btree/node.rs is not part of src; Node and its operations
are modelled from the spec as marked below.  Pages hold decoded nodes
directly, and the page cache is unbounded, so no OutOfMemory arises; `none`
results model panics and fuel exhaustion as before. -/

/-- Mirrors enum BTreeError of src/btree/mod.rs lines 22 to 25: the single
variant is OutOfMemory; no other error kind exists in the tree API. -/
inductive BTreeError where
  | outOfMemory : BTreeError
deriving DecidableEq

/-- Mirrors enum Either of src/btree2/slot.rs: a slot payload is either a
value (leaf) or a child PageId (internal). -/
inductive Either where
  | value : Int → Either
  | pointer : Int → Either
deriving DecidableEq

/-- Mirrors struct Slot of src/btree2/slot.rs.  Its Ord instance compares
keys only, so the containing BTreeSet is keyed by `key`. -/
structure Slot where
  key : Int
  val : Either
deriving DecidableEq

/-- Modelled from the spec: the node kinds of the missing src/btree/node.rs
(spec section 3, header field kind). -/
inductive NodeType where
  | internal : NodeType
  | leaf : NodeType
deriving DecidableEq

/-- Modelled from the spec: struct Node of the missing src/btree/node.rs
(spec section 3 and 4.D): kind, root flag, own PageId, slot capacity, the
ordered slot set, and the leaf sibling chain pointer (-1 when none). -/
structure Node where
  t : NodeType
  isRoot : Bool
  id : Int
  max : Nat
  values : List Slot
  next : Int
deriving DecidableEq

/-- BTreeSet::insert on the key-sorted slot list: inserts the slot unless a
slot with an equal key is present, in which case the old slot is kept. -/
def setInsert (s : Slot) : List Slot → List Slot
  | [] => [s]
  | x :: xs =>
    if s.key < x.key then s :: x :: xs
    else if s.key = x.key then x :: xs
    else x :: setInsert s xs

/-- BTreeSet::replace on the key-sorted slot list: inserts the slot,
replacing any slot with an equal key. -/
def setReplace (s : Slot) : List Slot → List Slot
  | [] => [s]
  | x :: xs =>
    if s.key < x.key then s :: x :: xs
    else if s.key = x.key then s :: xs
    else x :: setReplace s xs

/-- BTreeSet::get keyed by slot key (the probe slot's payload is ignored by
the key-only Ord of src/btree2/slot.rs). -/
def setGet (key : Int) (l : List Slot) : Option Slot :=
  l.find? (fun x => x.key == key)

/-- BTreeSet::remove keyed by slot key; also returns whether a slot was
removed. -/
def setRemove (key : Int) : List Slot → List Slot × Bool
  | [] => ([], false)
  | x :: xs =>
    if x.key = key then (xs, true)
    else
      let r := setRemove key xs
      (x :: r.1, r.2)

/-- BTreeSet::pop_last: remove and return the slot with the largest key
(the last of the sorted list). -/
def setPopLast : List Slot → Option (Slot × List Slot)
  | [] => none
  | x :: xs =>
    match setPopLast xs with
    | none => some (x, [])
    | some (last, rest) => some (last, x :: rest)

/-- Modelled from the spec: Node::new of the missing src/btree/node.rs; a
fresh node has no entries and no right sibling (spec sections 3 and 4.D). -/
def Node.new (id : Int) (max : Nat) (t : NodeType) (isRoot : Bool) : Node :=
  ⟨t, isRoot, id, max, [], -1⟩

/-- Modelled from the spec: Node::almost_full of the missing
src/btree/node.rs; a node is almost full when its count equals max - 1
(spec section 4.E), written without Nat truncation as count + 1 = max. -/
def Node.almostFull (n : Node) : Bool :=
  n.values.length + 1 == n.max

/-- Modelled from the spec: Node::last_key of the missing src/btree/node.rs;
the largest key of the node, none when the node is empty. -/
def Node.lastKey (n : Node) : Option Int :=
  n.values.getLast?.map (fun s => s.key)

/-- Modelled from the spec: Node::find_child of the missing
src/btree/node.rs; on an internal node the first slot whose key is greater
than or equal to the target gives the child pointer, none when every
separator is smaller; a leaf has no children (spec section 4.E descent). -/
def Node.findChild (n : Node) (key : Int) : Option Int :=
  if n.t = NodeType.leaf then none
  else
    match n.values.find? (fun s => decide (key ≤ s.key)) with
    | some s =>
      match s.val with
      | Either.pointer p => some p
      | Either.value _ => none
    | none => none

/-- Modelled from the spec: Node::split of the missing src/btree/node.rs;
move the upper half of the slots into the new sibling, keep the lower half,
and for a leaf link the sibling into the chain: sibling.next takes the old
next and the node's next becomes the sibling (spec section 4.E step 3).
Returns the updated node and the new sibling. -/
def Node.split (n : Node) (newId : Int) : Node × Node :=
  let keep := n.values.length - n.values.length / 2
  let lower := n.values.take keep
  let upper := n.values.drop keep
  (⟨n.t, n.isRoot, n.id, n.max, lower, if n.t = NodeType.leaf then newId else n.next⟩,
   ⟨n.t, false, newId, n.max, upper, if n.t = NodeType.leaf then n.next else -1⟩)

/-- Modelled from the spec: Node::get_separators of the missing
src/btree/node.rs; none when the node did not split, else the pair
own_last_key to own_id and sibling_last_key to sibling_id (spec section 4.E
separator contract). -/
def Node.getSeparators (n : Node) (other : Option Node) : Option (Slot × Slot) :=
  match other with
  | none => none
  | some o =>
    match n.values.getLast?, o.values.getLast? with
    | some a, some b =>
      some (⟨a.key, Either.pointer n.id⟩, ⟨b.key, Either.pointer o.id⟩)
    | _, _ => none

/-- State of a tree with its page store: the root PageId of BTree (-1 when
empty, src/btree/mod.rs line 42), the pages written so far, the next PageId
the disk provider allocates, and the tree's slot capacity max. -/
structure BTreeState where
  root : Int
  pages : List (Int × Node)
  nextPage : Int
  max : Nat
deriving DecidableEq

/-- Mirrors BTree::new (src/btree/mod.rs lines 40 to 47): empty store, root
sentinel -1. -/
def BTreeState.new (max : Nat) : BTreeState :=
  ⟨-1, [], 0, max⟩

/-- Models SharedPageCache::fetch_page followed by Node::from on the page
bytes: look up the node stored on the page. -/
def fetchPage (st : BTreeState) (id : Int) : Option Node :=
  (st.pages.find? (fun p => p.1 == id)).map (fun p => p.2)

/-- Models the writep! macro: re-encode the node into the page, installing
or overwriting the page's contents. -/
def writePage (st : BTreeState) (id : Int) (n : Node) : BTreeState :=
  if (st.pages.find? (fun p => p.1 == id)).isSome then
    { st with pages := st.pages.map (fun p => if p.1 = id then (id, n) else p) }
  else
    { st with pages := st.pages ++ [(id, n)] }

/-- Models SharedPageCache::new_page: allocate a fresh PageId; the page's
contents are installed by the write that follows in every code path. -/
def allocPage (st : BTreeState) : BTreeState × Int :=
  ({ st with nextPage := st.nextPage + 1 }, st.nextPage)

/-- Mirrors BTree::_insert (src/btree/mod.rs lines 88 to 207).  Recursion on
the page graph is bounded by fuel; exhaustion yields none, as do the panics
last_key().unwrap(), pop_last().unwrap() and the unreachable!() arms.  The
duplicated find-and-insert block of the source (its TODO notes the
duplication) appears twice below, once against the new sibling in the
almost-full fast path and once against the current node. -/
def insertAux : Nat → BTreeState → Int → Int → Int →
    Option (BTreeState × Option (Slot × Slot))
  | 0, _, _, _, _ => none
  | fuel + 1, st, pageId, key, value => do
    let node0 ← fetchPage st pageId
    if node0.almostFull then
      let a := allocPage st
      let st1 := a.1
      let newId := a.2
      let sp := node0.split newId
      let node := sp.1
      let nnode := sp.2
      let lk ← node.lastKey
      if key ≥ lk then
        let st2 := writePage st1 pageId node
        match nnode.findChild key with
        | some ptr => do
          let r ← insertAux fuel st2 ptr key value
          let nnode2 := match r.2 with
            | some (s, os) => { nnode with values := setReplace os (setReplace s nnode.values) }
            | none => nnode
          let st4 := writePage r.1 newId nnode2
          pure (st4, node.getSeparators (some nnode2))
        | none =>
          if nnode.t = NodeType.internal then do
            let pl ← setPopLast nnode.values
            let nnodeB := { nnode with values := setInsert ⟨key + 1, pl.1.val⟩ pl.2 }
            match nnodeB.findChild key with
            | some ptr => do
              let r ← insertAux fuel st2 ptr key value
              let nnode2 := match r.2 with
                | some (s, os) =>
                  { nnodeB with values := setReplace os (setReplace s nnodeB.values) }
                | none => nnodeB
              let st4 := writePage r.1 newId nnode2
              pure (st4, node.getSeparators (some nnode2))
            | none => none
          else do
            let nnode2 := { nnode with values := setReplace ⟨key, Either.value value⟩ nnode.values }
            let st3 := writePage st2 newId nnode2
            pure (st3, node.getSeparators (some nnode2))
      else
        let st2 := writePage st1 newId nnode
        match node.findChild key with
        | some ptr => do
          let r ← insertAux fuel st2 ptr key value
          let node2 := match r.2 with
            | some (s, os) => { node with values := setReplace os (setReplace s node.values) }
            | none => node
          let st4 := writePage r.1 pageId node2
          pure (st4, node2.getSeparators (some nnode))
        | none =>
          if node.t = NodeType.internal then do
            let pl ← setPopLast node.values
            let nodeB := { node with values := setInsert ⟨key + 1, pl.1.val⟩ pl.2 }
            match nodeB.findChild key with
            | some ptr => do
              let r ← insertAux fuel st2 ptr key value
              let node2 := match r.2 with
                | some (s, os) => { nodeB with values := setReplace os (setReplace s nodeB.values) }
                | none => nodeB
              let st4 := writePage r.1 pageId node2
              pure (st4, node2.getSeparators (some nnode))
            | none => none
          else do
            let node2 := { node with values := setReplace ⟨key, Either.value value⟩ node.values }
            let st3 := writePage st2 pageId node2
            pure (st3, node2.getSeparators (some nnode))
    else
      match node0.findChild key with
      | some ptr => do
        let r ← insertAux fuel st ptr key value
        let node2 := match r.2 with
          | some (s, os) => { node0 with values := setReplace os (setReplace s node0.values) }
          | none => node0
        let st4 := writePage r.1 pageId node2
        pure (st4, node2.getSeparators none)
      | none =>
        if node0.t = NodeType.internal then do
          let pl ← setPopLast node0.values
          let nodeB := { node0 with values := setInsert ⟨key + 1, pl.1.val⟩ pl.2 }
          match nodeB.findChild key with
          | some ptr => do
            let r ← insertAux fuel st ptr key value
            let node2 := match r.2 with
              | some (s, os) => { nodeB with values := setReplace os (setReplace s nodeB.values) }
              | none => nodeB
            let st4 := writePage r.1 pageId node2
            pure (st4, node2.getSeparators none)
          | none => none
        else do
          let node2 := { node0 with values := setReplace ⟨key, Either.value value⟩ node0.values }
          let st3 := writePage st pageId node2
          pure (st3, node2.getSeparators none)

/-- Mirrors BTree::insert (src/btree/mod.rs lines 51 to 85): create a leaf
root on the first insert, run the recursive descent, and when the root
split, install a new internal root holding the two separator slots. -/
def BTreeState.insert (st : BTreeState) (key value : Int) : Option BTreeState := do
  let p :=
    if st.root = -1 then
      let a := allocPage st
      (writePage a.1 a.2 (Node.new a.2 st.max NodeType.leaf true), a.2)
    else (st, st.root)
  let st2 : BTreeState := { p.1 with root := p.2 }
  let r ← insertAux (st2.pages.length + 1) st2 p.2 key value
  match r.2 with
  | none => pure r.1
  | some (s, os) =>
    let a := allocPage r.1
    let newRoot := Node.new a.2 st.max NodeType.internal true
    let newRoot2 := { newRoot with values := setInsert os (setInsert s newRoot.values) }
    pure { writePage a.1 a.2 newRoot2 with root := a.2 }

/-- Mirrors BTree::_get (src/btree/mod.rs lines 357 to 377), also returning
the list of pages fetched from the cache on the way. -/
def getAux : Nat → BTreeState → Int → Int → Option (Option Slot × List Int)
  | 0, _, _, _ => none
  | fuel + 1, st, key, ptr => do
    let node ← fetchPage st ptr
    match node.findChild key with
    | some p => do
      let r ← getAux fuel st key p
      pure (r.1, ptr :: r.2)
    | none =>
      if node.t = NodeType.leaf then pure (setGet key node.values, [ptr])
      else pure (none, [ptr])

/-- Mirrors BTree::get (src/btree/mod.rs lines 349 to 355): an empty tree
(root -1) answers none without fetching any page. -/
def BTreeState.get (st : BTreeState) (key : Int) : Option (Option Slot × List Int) :=
  if st.root = -1 then some (none, [])
  else getAux (st.pages.length + 1) st key st.root

/-- Mirrors BTree::_delete (src/btree/mod.rs lines 387 to 411), also
returning the list of pages fetched. -/
def deleteAux : Nat → BTreeState → Int → Int → Option ((BTreeState × Bool) × List Int)
  | 0, _, _, _ => none
  | fuel + 1, st, key, ptr => do
    let node ← fetchPage st ptr
    match node.findChild key with
    | some p => do
      let r ← deleteAux fuel st key p
      pure (r.1, ptr :: r.2)
    | none =>
      if node.t = NodeType.leaf then
        let rm := setRemove key node.values
        let st2 := if rm.2 then writePage st ptr { node with values := rm.1 } else st
        pure ((st2, rm.2), [ptr])
      else pure ((st, false), [ptr])

/-- Mirrors BTree::delete (src/btree/mod.rs lines 379 to 385): an empty tree
(root -1) answers false without fetching any page. -/
def BTreeState.delete (st : BTreeState) (key : Int) : Option ((BTreeState × Bool) × List Int) :=
  if st.root = -1 then some ((st, false), [])
  else deleteAux (st.pages.length + 1) st key st.root

/-- Mirrors BTree::first (src/btree/mod.rs lines 237 to 259): descend along
first child pointers to the leftmost leaf.  The assert!(ptr != -1) failing,
first().unwrap() on an empty internal node, and the unreachable!() value arm
are none. -/
def firstLeaf : Nat → BTreeState → Int → Option Int
  | 0, _, _ => none
  | fuel + 1, st, ptr =>
    if ptr = -1 then none
    else do
      let node ← fetchPage st ptr
      if node.t = NodeType.leaf then pure ptr
      else do
        let f ← node.values.head?
        match f.val with
        | Either.pointer p => firstLeaf fuel st p
        | Either.value _ => none

/-- The body of the scan loop over one leaf (src/btree/mod.rs lines 223 to
229): every slot must hold a value, else the unreachable!() arm panics. -/
def leafEntries (n : Node) : Option (List (Int × Int)) :=
  n.values.mapM (fun s =>
    match s.val with
    | Either.value v => some (s.key, v)
    | Either.pointer _ => none)

/-- The while loop of BTree::scan (src/btree/mod.rs lines 215 to 232):
follow the leaf chain, collecting every entry. -/
def scanChain : Nat → BTreeState → Int → List (Int × Int) → Option (List (Int × Int))
  | 0, _, _, _ => none
  | fuel + 1, st, cur, acc =>
    if cur = -1 then pure acc
    else do
      let node ← fetchPage st cur
      let es ← leafEntries node
      scanChain fuel st node.next (acc ++ es)

/-- Mirrors BTree::scan (src/btree/mod.rs lines 211 to 235). -/
def BTreeState.scan (st : BTreeState) : Option (List (Int × Int)) := do
  let f ← firstLeaf (st.pages.length + 1) st st.root
  scanChain (st.pages.length + 1) st f []

/-- Mirrors BTree::get_ptr (src/btree/mod.rs lines 328 to 347): locate the
leaf covering the key; inner none is the Ok(None) of a failed descent, outer
none the failed assert!(ptr != -1) or fuel exhaustion. -/
def getPtrAux : Nat → BTreeState → Int → Int → Option (Option Int)
  | 0, _, _, _ => none
  | fuel + 1, st, key, ptr =>
    if ptr = -1 then none
    else do
      let node ← fetchPage st ptr
      match node.findChild key with
      | some p => getPtrAux fuel st key p
      | none =>
        if node.t = NodeType.leaf then pure (some ptr) else pure none

/-- Mirrors BTree::_range (src/btree/mod.rs lines 281 to 326): per leaf,
skip entries below `lo`, take entries up to `hi`, and stop as soon as a leaf
contributed nothing or the chain ends. -/
def rangeChain : Nat → BTreeState → Node → List (Int × Int) → Int → Int →
    Option (List (Int × Int))
  | 0, _, _, _, _, _ => none
  | fuel + 1, st, node, acc, lo, hi => do
    let slots := ((node.values.dropWhile (fun s => decide (s.key < lo))).takeWhile
      (fun s => decide (s.key ≤ hi)))
    let es ← slots.mapM (fun s =>
      match s.val with
      | Either.value v => some (s.key, v)
      | Either.pointer _ => none)
    let acc2 := acc ++ es
    if es = [] then pure acc2
    else if node.next = -1 then pure acc2
    else do
      let node2 ← fetchPage st node.next
      rangeChain fuel st node2 acc2 lo hi

/-- Mirrors BTree::range (src/btree/mod.rs lines 261 to 279). -/
def BTreeState.range (st : BTreeState) (lo hi : Int) : Option (List (Int × Int)) := do
  let c ← getPtrAux (st.pages.length + 1) st lo st.root
  match c with
  | none => pure []
  | some cur => do
    let node ← fetchPage st cur
    rangeChain (st.pages.length + 1) st node [] lo hi


/-! ### Claim theorems for the tree -/

theorem firstLeaf_no_root (fuel : Nat) (st : BTreeState) : firstLeaf fuel st (-1) = none := by
  cases fuel with
  | zero => rfl
  | succ n =>
    unfold firstLeaf
    rw [if_pos rfl]

/-- C8: on an empty tree (root PageId -1, before any insert) scan() does not
return an empty sequence: first() asserts the root pointer is not -1 and the
assertion fails, modelled as the none outcome; in particular no list at all
is returned, so scan() carries the precondition that an insert has
completed. -/
theorem scan_empty_asserts (st : BTreeState) (h : st.root = -1) :
    st.scan = none := by
  unfold BTreeState.scan
  rw [h, firstLeaf_no_root]
  rfl

/-- Witness for C8: the fresh tree with capacity 4 has root -1 and scan
fails its assertion. -/
theorem scan_empty_asserts_witness :
    (BTreeState.new 4).root = -1 ∧ (BTreeState.new 4).scan = none :=
  ⟨rfl, scan_empty_asserts (BTreeState.new 4) rfl⟩

/-- C9: on an empty tree (root PageId -1), get returns none and delete
returns false, for every key, and both fetch no page from the cache (the
fetch log is empty). -/
theorem empty_get_delete (st : BTreeState) (key : Int) (h : st.root = -1) :
    st.get key = some (none, []) ∧ st.delete key = some ((st, false), []) := by
  constructor
  · unfold BTreeState.get
    rw [if_pos h]
  · unfold BTreeState.delete
    rw [if_pos h]

/-- Witness for C9: the fresh tree with capacity 4 and key 7. -/
theorem empty_get_delete_witness :
    (BTreeState.new 4).root = -1 ∧
    (BTreeState.new 4).get 7 = some (none, []) ∧
    (BTreeState.new 4).delete 7 = some ((BTreeState.new 4, false), []) :=
  ⟨rfl, (empty_get_delete (BTreeState.new 4) 7 rfl).1, (empty_get_delete (BTreeState.new 4) 7 rfl).2⟩

/-- C6 counterexample: BTreeError does not have three kinds; there are no
three pairwise distinct error values. -/
theorem btree_error_not_three_kinds :
    ¬ ∃ e1 e2 e3 : BTreeError, e1 ≠ e2 ∧ e1 ≠ e3 ∧ e2 ≠ e3 := by
  rintro ⟨e1, e2, e3, h12, _, _⟩
  cases e1
  cases e2
  exact h12 rfl

/-- C6 (amended): tree operations report failure by returning a BTreeError
value rather than raising, and the error type has exactly one kind,
OutOfMemory; no Io or CorruptPage variant exists in src/btree/mod.rs. -/
theorem btree_error_only_oom : ∀ e : BTreeError, e = BTreeError.outOfMemory := by
  intro e
  cases e
  rfl

/-- The overwrite scenario of C2: insert keys 1 and 2 into an empty tree of
capacity 3, then insert key 2 again with a new value.  The second insert of
key 2 finds the root leaf almost full and splits it before looking at the
existing entries. -/
def overwriteTrace : Option (BTreeState × BTreeState) := do
  let s1 ← (BTreeState.new 3).insert 1 10
  let s2 ← s1.insert 2 20
  let s3 ← s2.insert 2 99
  pure (s2, s3)

/-- The state of the overwrite scenario before the overwriting insert: a
single root leaf page 0 holding keys 1 and 2. -/
def overwriteBefore : BTreeState :=
  ⟨0, [(0, ⟨NodeType.leaf, true, 0, 3,
    [⟨1, Either.value 10⟩, ⟨2, Either.value 20⟩], -1⟩)], 1, 3⟩

/-- The state of the overwrite scenario after the overwriting insert: the
root leaf split into leaves 0 and 1 under a fresh internal root page 2. -/
def overwriteAfter : BTreeState :=
  ⟨2, [(0, ⟨NodeType.leaf, true, 0, 3, [⟨1, Either.value 10⟩], 1⟩),
    (1, ⟨NodeType.leaf, false, 1, 3, [⟨2, Either.value 99⟩], -1⟩),
    (2, ⟨NodeType.internal, true, 2, 3,
      [⟨1, Either.pointer 0⟩, ⟨2, Either.pointer 1⟩], -1⟩)], 3, 3⟩

/-- C2 counterexample: re-inserting the existing key 2 into the almost-full
root leaf splits it: the root moves from page 0 to a fresh internal page 2
and the page set changes, so the tree structure is not left unchanged, even
though get(2) duly answers the new value 99. -/
theorem overwrite_splits_structure_ce :
    overwriteTrace = some (overwriteBefore, overwriteAfter) ∧
    overwriteAfter.root ≠ overwriteBefore.root ∧
    (overwriteAfter.get 2).map Prod.fst = some (some ⟨2, Either.value 99⟩) := by
  refine ⟨by decide, by decide, by decide⟩

/-- One descent step of _insert at a leaf that is not almost full: the slot
is inserted or replaced in place and no separators are produced. -/
theorem insertAux_step_leaf {st : BTreeState} {pid key value : Int} {n : Node} (fuel : Nat)
    (hf : fetchPage st pid = some n) (haf : n.almostFull = false)
    (ht : n.t = NodeType.leaf) :
    insertAux (fuel + 1) st pid key value =
      some (writePage st pid { n with values := setReplace ⟨key, Either.value value⟩ n.values },
        Node.getSeparators { n with values := setReplace ⟨key, Either.value value⟩ n.values }
          none) := by
  have hfc : n.findChild key = none := by
    unfold Node.findChild
    rw [if_pos ht]
  unfold insertAux
  rw [hf]
  show (if n.almostFull then _ else _) = _
  rw [haf]
  simp only [Bool.false_eq_true, if_false]
  rw [hfc]
  show (if n.t = NodeType.internal then _ else _) = _
  rw [ht]
  rw [if_neg (fun hc => NodeType.noConfusion hc)]
  rfl

/-- One descent step of _get at a leaf: look the key up in the slot set. -/
theorem getAux_step_leaf {st : BTreeState} {key ptr : Int} {n : Node} (fuel : Nat)
    (hf : fetchPage st ptr = some n) (ht : n.t = NodeType.leaf) :
    getAux (fuel + 1) st key ptr = some (setGet key n.values, [ptr]) := by
  have hfc : n.findChild key = none := by
    unfold Node.findChild
    rw [if_pos ht]
  unfold getAux
  rw [hf]
  show (match n.findChild key with
    | some p => do
      let r ← getAux fuel st key p
      pure (r.1, ptr :: r.2)
    | none =>
      if n.t = NodeType.leaf then pure (setGet key n.values, [ptr])
      else pure (none, [ptr])) = _
  rw [hfc]
  show (if n.t = NodeType.leaf then _ else _) = _
  rw [if_pos ht]
  rfl

/-- C2 (amended): starting from the empty tree with capacity at least 3,
after insert(k, v1) and insert(k, v2) the lookup get(k) returns the slot
holding v2 — the overwrite wins; the structure claim is dropped, since an
insert of an existing key may still split almost-full nodes on its path. -/
theorem overwrite_get (key v1 v2 : Int) (max : Nat) (hmax : 3 ≤ max) :
    ∃ s1 s2, (BTreeState.new max).insert key v1 = some s1 ∧ s1.insert key v2 = some s2 ∧
      (s2.get key).map Prod.fst = some (some ⟨key, Either.value v2⟩) := by
  have e1 : ((0 : Nat) + 1 == max) = false := beq_eq_false_iff_ne.2 (by omega)
  have e2 : ((1 : Nat) + 1 == max) = false := beq_eq_false_iff_ne.2 (by omega)
  refine ⟨⟨0, [(0, ⟨NodeType.leaf, true, 0, max, [⟨key, Either.value v1⟩], -1⟩)], 1, max⟩,
    ⟨0, [(0, ⟨NodeType.leaf, true, 0, max, [⟨key, Either.value v2⟩], -1⟩)], 1, max⟩,
    ?_, ?_, ?_⟩
  · have hstep := @insertAux_step_leaf
      ⟨0, [(0, ⟨NodeType.leaf, true, 0, max, [], -1⟩)], 1, max⟩ 0 key v1
      ⟨NodeType.leaf, true, 0, max, [], -1⟩ 1
      (by simp [fetchPage]) (by simp [Node.almostFull, e1]) rfl
    simp [BTreeState.insert, BTreeState.new, allocPage, writePage, fetchPage, Node.new,
      Node.getSeparators, setReplace, hstep]
  · have hstep := @insertAux_step_leaf
      ⟨0, [(0, ⟨NodeType.leaf, true, 0, max, [⟨key, Either.value v1⟩], -1⟩)], 1, max⟩ 0 key v2
      ⟨NodeType.leaf, true, 0, max, [⟨key, Either.value v1⟩], -1⟩ 1
      (by simp [fetchPage]) (by simp [Node.almostFull, e2]) rfl
    simp [BTreeState.insert, allocPage, writePage, fetchPage,
      Node.getSeparators, setReplace, lt_irrefl, hstep]
  · have hstep := @getAux_step_leaf
      ⟨0, [(0, ⟨NodeType.leaf, true, 0, max, [⟨key, Either.value v2⟩], -1⟩)], 1, max⟩ key 0
      ⟨NodeType.leaf, true, 0, max, [⟨key, Either.value v2⟩], -1⟩ 1
      (by simp [fetchPage]) rfl
    simp [BTreeState.get, setGet, hstep]

/-- Witness for C2: the amended overwrite property at key 5, values 1 and
2, capacity 3. -/
theorem overwrite_get_witness :
    3 ≤ 3 ∧ ∃ s1 s2, (BTreeState.new 3).insert 5 1 = some s1 ∧ s1.insert 5 2 = some s2 ∧
      (s2.get 5).map Prod.fst = some (some ⟨5, Either.value 2⟩) :=
  ⟨by decide, overwrite_get 5 1 2 3 (by decide)⟩

/-- The range scenario of C1: insert keys 1 to 4 into an empty tree of
capacity 4 (splitting the root leaf), then delete key 2, leaving leaf 0
holding only key 1 while its separator in the root still reads 2. -/
def rangeTrace : Option BTreeState := do
  let s1 ← (BTreeState.new 4).insert 1 10
  let s2 ← s1.insert 2 20
  let s3 ← s2.insert 3 30
  let s4 ← s3.insert 4 40
  let r ← s4.delete 2
  pure r.1.1

/-- The state reached by the range scenario of C1. -/
def rangeState : BTreeState :=
  ⟨2, [(0, ⟨NodeType.leaf, true, 0, 4, [⟨1, Either.value 10⟩], 1⟩),
    (1, ⟨NodeType.leaf, false, 1, 4, [⟨3, Either.value 30⟩, ⟨4, Either.value 40⟩], -1⟩),
    (2, ⟨NodeType.internal, true, 2, 4,
      [⟨2, Either.pointer 0⟩, ⟨4, Either.pointer 1⟩], -1⟩)], 3, 4⟩

/-- C1 (code bug): after deleting key 2, the separator with key 2 still
directs the lookup of range(2, 4) to leaf 0, whose only key 1 lies below
the bound; the leaf contributes nothing and _range returns early (the len
check at src/btree/mod.rs line 306), missing the entries (3, 30) and
(4, 40) that scan() reports inside [2, 4].  range(2, 4) returns the empty
list instead of the in-range entries of scan(). -/
theorem range_misses_entries_after_delete :
    rangeTrace = some rangeState ∧
    rangeState.scan = some [(1, 10), (3, 30), (4, 40)] ∧
    List.filter (fun e => decide (2 ≤ e.1 ∧ e.1 ≤ 4)) [((1 : Int), (10 : Int)), (3, 30), (4, 40)] =
      [(3, 30), (4, 40)] ∧
    rangeState.range 2 4 = some [] := by
  refine ⟨by decide, by decide, by decide, by decide⟩

/-! ## Internal-node page decoder, from src/btree/internal.rs

InternalNode::new walks the page buffer from the end of the header, reading
one (key, page id) pair per step.  The get_bytes macro and the BTreeHeader
type live in modules that are not part of src; modelled from the spec
(section 4.D): the header occupies 18 bytes (kind 1, is_root 1, id 4,
count 4, next 4, max 4), multi-byte integers are big-endian, and decoding
stops when the remaining space is smaller than one slot.  Keys are the
4-byte integer kind, so a slot occupies 8 bytes. -/

/-- Big-endian signed 32-bit integer from 4 page bytes (as
i32::from_be_bytes in src/btree2/slot.rs). -/
def i32FromBytes (b : List Nat) : Int :=
  let n : Nat := b.foldl (fun acc x => acc * 256 + x % 256) 0
  if n < 2147483648 then (n : Int) else (n : Int) - 4294967296

/-- Modelled from the spec: the byte size of the node header
(section 4.D). -/
def HEADERSIZE : Nat := 18

/-- The decode loop of InternalNode::new (src/btree/internal.rs lines 31 to
46): while the position is inside the page, read 4 key bytes and 4 pointer
bytes; a pair whose page id is 0 is skipped with continue, any other pair is
kept, and the loop also stops when fewer than 8 bytes remain (the
spec-modelled behaviour of get_bytes at the page edge).  Fuel only bounds
the recursion; one unit per slot suffices. -/
def internalPairsGo (data : List Nat) (pageSize : Nat) : Nat → Nat → List (Int × Int)
  | 0, _ => []
  | fuel + 1, pos =>
    if pos < pageSize then
      if pos + 8 ≤ pageSize then
        let kb := (data.drop pos).take 4
        let vb := (data.drop (pos + 4)).take 4
        let pid := i32FromBytes vb
        if pid = 0 then internalPairsGo data pageSize fuel (pos + 8)
        else (i32FromBytes kb, pid) :: internalPairsGo data pageSize fuel (pos + 8)
      else []
    else []

/-- Mirrors InternalNode::new (src/btree/internal.rs lines 22 to 49),
returning the decoded pairs vector. -/
def internalPairs (pageSize : Nat) (data : List Nat) : List (Int × Int) :=
  internalPairsGo data pageSize pageSize HEADERSIZE

/-- The decode loop as the claim words it: identical, except that decoding
stops at the first slot whose pointer bytes decode to the sentinel 0, so no
slot after a zero-pointer slot appears. -/
def internalPairsStopGo (data : List Nat) (pageSize : Nat) : Nat → Nat → List (Int × Int)
  | 0, _ => []
  | fuel + 1, pos =>
    if pos < pageSize then
      if pos + 8 ≤ pageSize then
        let kb := (data.drop pos).take 4
        let vb := (data.drop (pos + 4)).take 4
        let pid := i32FromBytes vb
        if pid = 0 then []
        else (i32FromBytes kb, pid) :: internalPairsStopGo data pageSize fuel (pos + 8)
      else []
    else []

/-- Decoding as the claim describes it, stopping at the first zero
pointer. -/
def internalPairsStop (pageSize : Nat) (data : List Nat) : List (Int × Int) :=
  internalPairsStopGo data pageSize pageSize HEADERSIZE

/-- Every slot of the page in order, with no zero-pointer filtering, for
stating what the decoder actually keeps. -/
def rawSlotsGo (data : List Nat) (pageSize : Nat) : Nat → Nat → List (Int × Int)
  | 0, _ => []
  | fuel + 1, pos =>
    if pos < pageSize then
      if pos + 8 ≤ pageSize then
        let kb := (data.drop pos).take 4
        let vb := (data.drop (pos + 4)).take 4
        (i32FromBytes kb, i32FromBytes vb) :: rawSlotsGo data pageSize fuel (pos + 8)
      else []
    else []

/-- Every slot of the page in order. -/
def rawSlots (pageSize : Nat) (data : List Nat) : List (Int × Int) :=
  rawSlotsGo data pageSize pageSize HEADERSIZE

/-- A 34-byte page (18-byte header, two slots): slot one has key 1 and
pointer 0, slot two has key 2 and pointer 5. -/
def zeroSlotPage : List Nat :=
  List.replicate 18 0 ++ [0, 0, 0, 1, 0, 0, 0, 0] ++ [0, 0, 0, 2, 0, 0, 0, 5]

/-- C7 counterexample: on a page whose first slot has a zero pointer and
whose second slot has pointer 5, InternalNode::new keeps the second slot:
the continue statement skips the zero-pointer slot instead of stopping, so
a slot after a zero-pointer slot does appear in the decoded node, unlike
the claim's stop-at-zero reading (which would decode no pairs). -/
theorem internal_decode_skips_zero_ce :
    internalPairs 34 zeroSlotPage = [(2, 5)] ∧
    internalPairsStop 34 zeroSlotPage = [] ∧
    internalPairs 34 zeroSlotPage ≠ internalPairsStop 34 zeroSlotPage := by
  refine ⟨by decide, by decide, by decide⟩

theorem internalPairsGo_eq_filter (data : List Nat) (pageSize : Nat) (fuel pos : Nat) :
    internalPairsGo data pageSize fuel pos =
      (rawSlotsGo data pageSize fuel pos).filter (fun e => decide (e.2 ≠ 0)) := by
  induction fuel generalizing pos with
  | zero => rfl
  | succ fuel ih =>
    unfold internalPairsGo rawSlotsGo
    by_cases h1 : pos < pageSize
    · rw [if_pos h1, if_pos h1]
      by_cases h2 : pos + 8 ≤ pageSize
      · rw [if_pos h2, if_pos h2]
        dsimp only
        by_cases h3 : i32FromBytes ((data.drop (pos + 4)).take 4) = 0
        · rw [if_pos h3]
          rw [List.filter_cons]
          rw [if_neg (by simp [h3])]
          exact ih (pos + 8)
        · rw [if_neg h3]
          rw [List.filter_cons]
          rw [if_pos (by simp [h3])]
          rw [ih (pos + 8)]
      · rw [if_neg h2, if_neg h2]
        rfl
    · rw [if_neg h1, if_neg h1]
      rfl

/-- C7 (amended): decoding an internal node reads slots in order over the
whole page, stopping only when the remaining space is smaller than one
slot; a slot whose pointer bytes decode to the sentinel 0 is skipped and
decoding continues, so the decoded node holds exactly the nonzero-pointer
slots of the page, including slots after a zero-pointer slot. -/
theorem internal_decode_filters_zero (pageSize : Nat) (data : List Nat) :
    internalPairs pageSize data =
      (rawSlots pageSize data).filter (fun e => decide (e.2 ≠ 0)) :=
  internalPairsGo_eq_filter data pageSize pageSize HEADERSIZE
